import Mathlib

/-!
Shallow embedding of `src/lyric_generation.py`, a word-level n-gram Markov
lyric generator.  Python strings are modelled as lists of characters
(`PyStr`), Python's `collections.Counter` and the `defaultdict` model as
insertion-ordered association lists, and the `IndexError` that Python raises
on `history[-1]` for an empty history (and on `text[i][0]` for an empty
word) as `Option.none`.  The float division `cnt/total` of `normalize` is
modelled exactly, as the rational `mkRat cnt total`.  The process-wide
random source used by `np.random.choice` is injected as an explicit `pick`
function, following the design note of the specification that the
random-choice operation should accept an injectable source of randomness;
`np.random.choice(words, p=probs)` is deterministic whenever the
distribution puts probability 1 on a single word, which is the situation in
every concrete evaluation below.
-/

namespace LyricGen

/-- Python strings, modelled as their list of characters. -/
abbrev PyStr := List Char

/-- Conversion from Lean string literals to the `PyStr` model. -/
def pys (s : String) : PyStr := s.data

/-- Python's splitting of a string at every single occurrence of a separator
character (the semantics of both `str.split(" ")` and
`re.split(' |\n|\t', s)`): empty pieces between, before and after
separators are kept, and the result is never the empty list. -/
def splitOnP (p : Char → Bool) : PyStr → List PyStr
  | [] => [[]]
  | c :: rest =>
    if p c then [] :: splitOnP p rest
    else
      match splitOnP p rest with
      | [] => [[c]]
      | piece :: ps => (c :: piece) :: ps

/-- The separator set of `re.split(' |\n|\t', item)` (lines 78 and 80). -/
def isWS (c : Char) : Bool := c = ' ' || c = '\n' || c = '\t'

/-- Tokenization of one document, `re.split(' |\n|\t', item)`. -/
def tokenize (s : PyStr) : List PyStr := splitOnP isWS s

/-- Python `history.split(" ")` (lines 96, 99, 180, 183). -/
def splitSp (s : PyStr) : List PyStr := splitOnP (fun c => c = ' ') s

/-- Python `" ".join(ws)`. -/
def joinSp : List PyStr → PyStr
  | [] => []
  | [w] => w
  | w :: ws => w ++ ' ' :: joinSp ws

/-- A corpus is a single document or a list of documents: the Python code
branches on `type(lyrics) == list`. -/
abbrev Corpus := PyStr ⊕ List PyStr

/-- One entry of `collections.Counter`, in insertion order: word to count. -/
abbrev Counter := List (PyStr × ℕ)

/-- The raw `defaultdict(Counter)` model built during training, in key
insertion order. -/
abbrev ModelRaw := List (PyStr × Counter)

/-- The trained language model: history to list of (word, probability). -/
abbrev Model := List (PyStr × List (PyStr × ℚ))

/-- The skip test of lines 89 and 103:
`"[" in word or "]" in word or "" == word`. -/
def isSkip (w : PyStr) : Bool := w.contains '[' || w.contains ']' || w.isEmpty

/-- The initial history `"~ " * (n-1)` of lines 84 and 170.  Note the
trailing space: for n = 2 this is the two-character string `"~ "`. -/
def initHist (n : ℕ) : PyStr := (List.replicate (n - 1) ([ '~', ' ' ])).flatten

/-- The history slide of lines 95-99 and 179-183:
if `history[-1] == " "` then `" ".join(history.split(" ")[1:]) + word`
else `" ".join(history.split(" ")[1:]) + " " + word`.
`history[-1]` raises `IndexError` when the history is empty, modelled by
`none`. -/
def slide (history w : PyStr) : Option PyStr :=
  match history.getLast? with
  | none => none
  | some c =>
    if c = ' ' then some (joinSp (splitSp history).tail ++ w)
    else some (joinSp (splitSp history).tail ++ ' ' :: w)

/-- Python `counter[w] += 1` on a `collections.Counter`, preserving first
insertion order of the keys. -/
def bumpCounter (w : PyStr) : Counter → Counter
  | [] => [(w, 1)]
  | (x, c) :: rest => if x = w then (x, c + 1) :: rest else (x, c) :: bumpCounter w rest

/-- Python `model[history][w] += 1` on a `defaultdict(Counter)` (lines 93
and 107), preserving first insertion order of the history keys. -/
def bump (h w : PyStr) : ModelRaw → ModelRaw
  | [] => [(h, [(w, 1)])]
  | (k, ctr) :: rest =>
    if k = h then (k, bumpCounter w ctr) :: rest else (k, ctr) :: bump h w rest

/-- Python `Counter.most_common()`: entries sorted by descending count; the
sort is stable, so ties keep first-insertion order.  Insertion step. -/
def insertDesc (p : PyStr × ℕ) : Counter → Counter
  | [] => [p]
  | q :: rest => if q.2 ≤ p.2 then p :: q :: rest else q :: insertDesc p rest

/-- Python `Counter.most_common()` (line 49), a stable descending sort. -/
def mostCommon : Counter → Counter
  | [] => []
  | p :: rest => insertDesc p (mostCommon rest)

/-- Python `sum(counter.values())` (line 48). -/
def sumCounts (ctr : Counter) : ℕ := (ctr.map Prod.snd).sum

/-- The `normalize` function of lines 33-49:
`[(char, cnt/total) for char, cnt in counter.most_common()]` with
`total = sum(counter.values())`; the division is exact rational division. -/
def normalize (ctr : Counter) : List (PyStr × ℚ) :=
  (mostCommon ctr).map (fun q => (q.1, mkRat q.2 (sumCounts ctr)))

/-- One token of the per-word loop of the list-of-documents branch of
`train_lm` (lines 87-99): state is (model, history); skipped tokens leave
the state unchanged; otherwise the count is bumped and the history slides
(its `IndexError` aborts training). -/
def stepWord (st : ModelRaw × PyStr) (w : PyStr) : Option (ModelRaw × PyStr) :=
  if isSkip w then some st
  else
    (slide st.2 w).map (fun h' => (bump st.2 w st.1, h'))

/-- The per-word loop of the list branch of `train_lm` over one document. -/
def runWords (st : ModelRaw × PyStr) : List PyStr → Option (ModelRaw × PyStr)
  | [] => some st
  | w :: ws => (stepWord st w).bind (fun st' => runWords st' ws)

/-- Training on one tokenized document of a list corpus: history is
initialized to `"~ " * (n-1)` and the document's words are folded in. -/
def trainTuple (n : ℕ) (m : ModelRaw) (words : List PyStr) : Option ModelRaw :=
  (runWords (m, initHist n) words).map Prod.fst

/-- The outer loop of `train_lm` over the documents of a list corpus. -/
def runDocs (n : ℕ) (m : ModelRaw) : List (List PyStr) → Option ModelRaw
  | [] => some m
  | ws :: rest => (trainTuple n m ws).bind (fun m' => runDocs n m' rest)

/-- One iteration of the outer loop of `train_lm` in the single-string
branch (lines 83-84 and 100-113): the corpus was tokenized into single
words, so `item` is one word and — crucially — the history is re-assigned
to `"~ " * (n-1)` at the top of the loop for every single token; the slid
history is computed (its `IndexError` aborts training) but never used. -/
def stepTok (n : ℕ) (m : ModelRaw) (tok : PyStr) : Option ModelRaw :=
  if isSkip tok then some m
  else
    (slide (initHist n) tok).map (fun _ => bump (initHist n) tok m)

/-- The outer loop of `train_lm` in the single-string branch. -/
def runToks (n : ℕ) (m : ModelRaw) : List PyStr → Option ModelRaw
  | [] => some m
  | t :: ts => (stepTok n m t).bind (fun m' => runToks n m' ts)

/-- The counting phase of `train_lm` (lines 71-113), before normalization:
a single string is tokenized and fed through the per-token loop (which
resets the history at every token); a list is tokenized per document and
fed through the per-word loop (which resets the history per document). -/
def trainRaw (lyrics : Corpus) (n : ℕ) : Option ModelRaw :=
  match lyrics with
  | .inl s => runToks n [] (tokenize s)
  | .inr docs => runDocs n [] (docs.map tokenize)

/-- The `train_lm` function of lines 52-118: counting followed by the
normalization of line 116.  `none` models an uncaught `IndexError`. -/
def train_lm (lyrics : Corpus) (n : ℕ) : Option Model :=
  (trainRaw lyrics n).map (List.map (fun p => (p.1, normalize p.2)))

/-- Association-list lookup, modelling `history not in lm` / `lm[history]`
(lines 139-142). -/
def lookupModel (lm : Model) (h : PyStr) : Option (List (PyStr × ℚ)) :=
  match lm with
  | [] => none
  | (k, d) :: rest => if k = h then some d else lookupModel rest h

/-- The `generate_word` function of lines 121-143: the fallback token `'~'`
when the history is absent, otherwise one draw of
`np.random.choice(word, p=prob)`, with the random source injected as
`pick`. -/
def generate_word (lm : Model) (history : PyStr)
    (pick : List (PyStr × ℚ) → PyStr) : PyStr :=
  match lookupModel lm history with
  | none => [ '~' ]
  | some dist => pick dist

/-- The generation loop of lines 175-183: `n_words` iterations of
generate-append-slide starting from the given history. -/
def genLoop (lm : Model) (pick : List (PyStr × ℚ) → PyStr) :
    ℕ → PyStr → Option (List PyStr)
  | 0, _ => some []
  | k + 1, h =>
    (slide h (generate_word lm h pick)).bind
      (fun h' => (genLoop lm pick k h').map (generate_word lm h pick :: ·))

/-- The first post-processing pass (lines 186-188): if the word contains
`'('` anywhere, its first character is dropped (`text[i][1:]`). -/
def strip1 (w : PyStr) : PyStr := if w.contains '(' then w.drop 1 else w

/-- The second post-processing pass (lines 191-193): if the word contains
`')'` anywhere, its last character is dropped (`text[i][:-1]`). -/
def strip2 (w : PyStr) : PyStr := if w.contains ')' then w.dropLast else w

/-- Python's substring test `needle in hay`. -/
def isSubstr (needle : PyStr) : PyStr → Bool
  | [] => needle.isEmpty
  | c :: rest => needle.isPrefixOf (c :: rest) || isSubstr needle rest

/-- The line-break pass for a single-string original (lines 203-205): if
`"\n" + text[i] in original`, prefix the word with a newline.  This branch
never inspects `text[i][0]`, so it cannot raise. -/
def newlineFixStr (original w : PyStr) : PyStr :=
  if isSubstr ('\n' :: w) original then '\n' :: w else w

/-- The line-break pass for a list original (lines 198-201), folding over
the documents: when `"\n" + text[i] in item`, Python then evaluates
`text[i][0]`, which raises `IndexError` (modelled by `none`) if the word
has become empty; otherwise the word is prefixed with a newline unless it
already starts with one. -/
def newlineFixList (items : List PyStr) (w : PyStr) : Option PyStr :=
  items.foldlM
    (fun cur item =>
      if isSubstr ('\n' :: cur) item then
        match cur with
        | [] => none
        | c :: _ => if c = '\n' then some cur else some ('\n' :: cur)
      else some cur) w

/-- Option-valued map that stops at the first failure, modelling the
mutating loop of lines 196-205 aborting at the first `IndexError`. -/
def mapOptM (f : PyStr → Option PyStr) : List PyStr → Option (List PyStr)
  | [] => some []
  | a :: l => (f a).bind (fun b => (mapOptM f l).map (b :: ·))

/-- The third post-processing pass (lines 196-205): positions `i ≥ 1` only;
the branch on `type(original) == list` selects the raising or non-raising
variant. -/
def pass3 (original : Corpus) (text : List PyStr) : Option (List PyStr) :=
  match text with
  | [] => some []
  | w0 :: rest =>
    match original with
    | .inl s => some (w0 :: rest.map (newlineFixStr s))
    | .inr items => (mapOptM (newlineFixList items) rest).map (w0 :: ·)

/-- The `generate_text` function of lines 146-208, yielding the string that
the Python function prints on line 208.  Note that the Python function
itself returns `None` — its last line is `return print(" ".join(text))` —
so this definition denotes the printed text, not the Python return value. -/
def generate_text (original : Corpus) (lm : Model) (n : ℕ) (n_words : ℕ)
    (pick : List (PyStr × ℚ) → PyStr) : Option PyStr :=
  (genLoop lm pick n_words (initHist n)).bind
    (fun text => (pass3 original ((text.map strip1).map strip2)).map joinSp)

/-- A concrete injected random source: the first (most probable) word of the
distribution.  `np.random.choice` necessarily returns this word whenever
the distribution is degenerate (probability 1 on the first entry). -/
def pickFirst (d : List (PyStr × ℚ)) : PyStr :=
  match d with
  | [] => []
  | q :: _ => q.1

/-- Absence of the space separator from a word; tokens produced by
`tokenize` and the placeholder `~` all satisfy it. -/
abbrev spaceFree (w : PyStr) : Prop := ∀ c ∈ w, ¬(c = ' ')

/-- A well-formed history for order `n`: splitting at spaces yields exactly
`n - 1` nonempty, space-free words (no leading, trailing or doubled
spaces). -/
abbrev goodHist (n : ℕ) (h : PyStr) : Prop :=
  (splitSp h).length = n - 1 ∧ ∀ u ∈ splitSp h, u ≠ [] ∧ spaceFree u

/-- Every key and every listed word of a trained model passes the skip
filter of lines 89/103. -/
def modelClean (lm : Model) : Prop :=
  ∀ p ∈ lm, isSkip p.1 = false ∧ ∀ q ∈ p.2, isSkip q.1 = false

/-- The same property for the raw counting model. -/
def modelCleanRaw (m : ModelRaw) : Prop :=
  ∀ p ∈ m, isSkip p.1 = false ∧ ∀ q ∈ p.2, isSkip q.1 = false

/-- Every counter of the raw model is nonempty with positive counts. -/
def goodRaw (m : ModelRaw) : Prop :=
  ∀ p ∈ m, p.2 ≠ [] ∧ ∀ q ∈ p.2, 0 < q.2

/-- A history string that is nonempty and bracket-free. -/
def histClean (h : PyStr) : Prop := h ≠ [] ∧ '[' ∉ h ∧ ']' ∉ h

/-- Whether a corpus has at least one token that survives the skip filter. -/
def hasRealToken : Corpus → Bool
  | .inl s => (tokenize s).any (fun t => !(isSkip t))
  | .inr docs => docs.any (fun d => (tokenize d).any (fun t => !(isSkip t)))

/-- The normalization contract of one model entry: the distribution is the
normalization of a nonempty positive counter, is itself nonempty, sums to
1, is sorted by descending probability, carries exactly the count/total
ratios, and the stable sort keeps tied counts in first-encountered order. -/
def distOK (ctr : Counter) (d : List (PyStr × ℚ)) : Prop :=
  d = normalize ctr ∧ ctr ≠ [] ∧ (∀ q ∈ ctr, 0 < q.2) ∧ d ≠ [] ∧
  (d.map Prod.snd).sum = 1 ∧ d.Pairwise (fun a b => b.2 ≤ a.2) ∧
  (∀ q ∈ d, ∃ r ∈ ctr, q.1 = r.1 ∧ q.2 = (r.2 : ℚ) / (sumCounts ctr : ℚ)) ∧
  (∀ k, (mostCommon ctr).filter (fun q => q.2 = k) = ctr.filter (fun q => q.2 = k))

/-- Normalization contract for a whole trained model, tied back to the raw
counters produced by the counting phase. -/
def modelNormalized (corpus : Corpus) (n : ℕ) (lm : Model) : Prop :=
  ∀ p ∈ lm, ∃ raw ctr, trainRaw corpus n = some raw ∧ (p.1, ctr) ∈ raw ∧ distOK ctr p.2

/-- Splitting never produces the empty list of pieces (Python's `split`
always returns at least one piece). -/
theorem splitOnP_ne_nil (p : Char → Bool) (s : PyStr) : splitOnP p s ≠ [] := by
  induction s with
  | nil => simp [splitOnP]
  | cons c rest ih =>
    simp only [splitOnP]
    split
    · simp
    · split
      · simp
      · simp

/-- Characters of a piece come from the split string. -/
theorem mem_of_mem_splitOnP (p : Char → Bool) :
    ∀ s u, u ∈ splitOnP p s → ∀ c ∈ u, c ∈ s := by
  intro s
  induction s with
  | nil =>
    intro u hu c hc
    simp [splitOnP] at hu
    subst hu
    simp at hc
  | cons a rest ih =>
    intro u hu c hc
    simp only [splitOnP] at hu
    by_cases hp : p a
    · rw [if_pos hp] at hu
      rcases List.mem_cons.mp hu with rfl | hu
      · simp at hc
      · exact List.mem_cons_of_mem _ (ih u hu c hc)
    · rw [if_neg hp] at hu
      cases hsp : splitOnP p rest with
      | nil => exact absurd hsp (splitOnP_ne_nil p rest)
      | cons piece ps =>
        rw [hsp] at hu
        rcases List.mem_cons.mp hu with rfl | hu
        · rcases List.mem_cons.mp hc with rfl | hc
          · exact List.mem_cons_self _ _
          · have hpm : piece ∈ splitOnP p rest := by
              rw [hsp]; exact List.mem_cons_self piece ps
            exact List.mem_cons_of_mem _ (ih piece hpm c hc)
        · have hum : u ∈ splitOnP p rest := by
            rw [hsp]; exact List.mem_cons_of_mem _ hu
          exact List.mem_cons_of_mem _ (ih u hum c hc)

/-- Pieces of a split contain no separator characters. -/
theorem sepFree_of_mem_splitOnP (p : Char → Bool) :
    ∀ s u, u ∈ splitOnP p s → ∀ c ∈ u, p c = false := by
  intro s
  induction s with
  | nil =>
    intro u hu c hc
    simp [splitOnP] at hu
    subst hu
    simp at hc
  | cons a rest ih =>
    intro u hu c hc
    simp only [splitOnP] at hu
    by_cases hp : p a
    · rw [if_pos hp] at hu
      rcases List.mem_cons.mp hu with rfl | hu
      · simp at hc
      · exact ih u hu c hc
    · rw [if_neg hp] at hu
      cases hsp : splitOnP p rest with
      | nil => exact absurd hsp (splitOnP_ne_nil p rest)
      | cons piece ps =>
        rw [hsp] at hu
        rcases List.mem_cons.mp hu with rfl | hu
        · rcases List.mem_cons.mp hc with rfl | hc
          · exact Bool.eq_false_iff.mpr hp
          · have hpm : piece ∈ splitOnP p rest := by
              rw [hsp]; exact List.mem_cons_self piece ps
            exact ih piece hpm c hc
        · have hum : u ∈ splitOnP p rest := by
            rw [hsp]; exact List.mem_cons_of_mem _ hu
          exact ih u hum c hc

/-- Unfolding `joinSp` on a cons with a nonempty tail. -/
theorem joinSp_cons_of_ne_nil (w : PyStr) (ws : List PyStr) (h : ws ≠ []) :
    joinSp (w :: ws) = w ++ ' ' :: joinSp ws := by
  cases ws with
  | nil => exact absurd rfl h
  | cons a l => rfl

/-- Joining the pieces of a split at spaces recovers the string. -/
theorem joinSp_splitSp (h : PyStr) : joinSp (splitSp h) = h := by
  induction h with
  | nil => rfl
  | cons c t ih =>
    simp only [splitSp, splitOnP] at *
    by_cases hc : c = ' '
    · rw [if_pos (by simp [hc])]
      rw [joinSp_cons_of_ne_nil [] _ (splitOnP_ne_nil _ t), ih]
      simp [hc]
    · rw [if_neg (by simp [hc])]
      cases hsp : splitOnP (fun c => decide (c = ' ')) t with
      | nil => exact absurd hsp (splitOnP_ne_nil _ t)
      | cons piece ps =>
        rw [hsp] at ih
        cases ps with
        | nil =>
          simpa [joinSp] using congrArg (fun l => c :: l) ih
        | cons q ps' =>
          rw [joinSp_cons_of_ne_nil piece _ (by simp)] at ih
          rw [joinSp_cons_of_ne_nil (c :: piece) _ (by simp)]
          simpa using congrArg (fun l => c :: l) ih

/-- A space-free word splits to the single piece it is. -/
theorem splitSp_spaceFree {w : PyStr} (hw : spaceFree w) : splitSp w = [w] := by
  induction w with
  | nil => rfl
  | cons c t ih =>
    have hc : ¬(c = ' ') := hw c (List.mem_cons_self c t)
    have ht : spaceFree t := fun d hd => hw d (List.mem_cons_of_mem c hd)
    simp only [splitSp, splitOnP]
    rw [if_neg (by simp [hc])]
    rw [show splitOnP (fun c => decide (c = ' ')) t = splitSp t from rfl, ih ht]

/-- Splitting a string that starts with a space-free word followed by a
space peels off that word. -/
theorem splitSp_append_space {w : PyStr} (hw : spaceFree w) (t : PyStr) :
    splitSp (w ++ ' ' :: t) = w :: splitSp t := by
  induction w with
  | nil =>
    simp only [List.nil_append, splitSp, splitOnP]
    rw [if_pos (by simp)]
  | cons c w' ih =>
    have hc : ¬(c = ' ') := hw c (List.mem_cons_self c w')
    have hw' : spaceFree w' := fun d hd => hw d (List.mem_cons_of_mem c hd)
    simp only [splitSp] at ih
    simp only [List.cons_append, splitSp, splitOnP, List.append_eq]
    rw [if_neg (by simp [hc]), ih hw']

/-- Splitting the space-join of nonconflicting words recovers the words. -/
theorem splitSp_joinSp {ws : List PyStr} (hne : ws ≠ [])
    (hsf : ∀ u ∈ ws, spaceFree u) : splitSp (joinSp ws) = ws := by
  induction ws with
  | nil => exact absurd rfl hne
  | cons u ws' ih =>
    cases ws' with
    | nil => exact splitSp_spaceFree (hsf u (List.mem_cons_self u []))
    | cons v l =>
      rw [joinSp_cons_of_ne_nil u _ (by simp)]
      rw [splitSp_append_space (hsf u (List.mem_cons_self u _))]
      rw [ih (by simp) (fun x hx => hsf x (List.mem_cons_of_mem u hx))]

/-- Appending one more word to a nonempty join inserts a single space. -/
theorem joinSp_concat (l : List PyStr) (hl : l ≠ []) (w : PyStr) :
    joinSp (l ++ [w]) = joinSp l ++ ' ' :: w := by
  induction l with
  | nil => exact absurd rfl hl
  | cons a l' ih =>
    cases l' with
    | nil => rfl
    | cons b l'' =>
      rw [List.cons_append, joinSp_cons_of_ne_nil a _ (by simp),
        joinSp_cons_of_ne_nil a _ (by simp), ih (by simp)]
      simp

/-- Last character of a join ending in a nonempty word. -/
theorem getLast?_joinSp_concat_ne {l : List PyStr} {t : PyStr} {c : Char} :
    (joinSp (l ++ [t ++ [c]])).getLast? = some c := by
  cases l with
  | nil => exact List.getLast?_concat t
  | cons a l' =>
    rw [joinSp_concat (a :: l') (by simp) (t ++ [c])]
    rw [show joinSp (a :: l') ++ ' ' :: (t ++ [c]) =
      (joinSp (a :: l') ++ ' ' :: t) ++ [c] by simp]
    exact List.getLast?_concat _

/-- Last character of a join ending in the empty word. -/
theorem getLast?_joinSp_concat_nil {l : List PyStr} (hl : l ≠ []) :
    (joinSp (l ++ [[]])).getLast? = some ' ' := by
  rw [joinSp_concat l hl []]
  exact List.getLast?_concat _

/-- The initial history is the join of `n - 1` placeholder words with a
final empty piece coming from its trailing space. -/
theorem initHist_eq (n : ℕ) :
    initHist n = joinSp (List.replicate (n - 1) (pys "~") ++ [[]]) := by
  show (List.replicate (n - 1) ([ '~', ' ' ])).flatten =
    joinSp (List.replicate (n - 1) (pys "~") ++ [[]])
  induction n - 1 with
  | zero => rfl
  | succ m ih =>
    rw [List.replicate_succ, List.replicate_succ, List.flatten_cons, ih]
    simp only [List.cons_append]
    rw [joinSp_cons_of_ne_nil (pys "~") (List.replicate m (pys "~") ++ [[]]) (by simp)]
    rfl

/-- On a nonempty history the slide never raises. -/
theorem slide_isSome {h : PyStr} (hh : h ≠ []) (w : PyStr) :
    (slide h w).isSome = true := by
  obtain ⟨l, a, rfl⟩ := (List.eq_nil_or_concat h).resolve_left hh
  simp only [List.concat_eq_append, slide, List.getLast?_concat]
  split <;> rfl

/-- A slide with a nonempty new word yields a nonempty history. -/
theorem slide_some_ne_nil {h w h' : PyStr} (hs : slide h w = some h') (hw : w ≠ []) :
    h' ≠ [] := by
  cases hg : h.getLast? with
  | none => simp [slide, hg] at hs
  | some c =>
    simp only [slide, hg] at hs
    by_cases hc : c = ' '
    · rw [if_pos hc] at hs
      cases hs
      simp [hw]
    · rw [if_neg hc] at hs
      cases hs
      simp

/-- A character of a space-join is a character of one of the words or a
space. -/
theorem mem_joinSp : ∀ {ws : List PyStr} {c : Char},
    c ∈ joinSp ws → (∃ u ∈ ws, c ∈ u) ∨ c = ' ' := by
  intro ws
  induction ws with
  | nil => intro c hc; simp [joinSp] at hc
  | cons u us ih =>
    intro c hc
    cases us with
    | nil =>
      left
      exact ⟨u, by simp, hc⟩
    | cons v vs =>
      rw [joinSp_cons_of_ne_nil u _ (by simp)] at hc
      rcases List.mem_append.mp hc with h1 | h2
      · left; exact ⟨u, by simp, h1⟩
      · rcases List.mem_cons.mp h2 with rfl | h3
        · right; rfl
        · rcases ih h3 with ⟨x, hx, hcx⟩ | hsp
          · left; exact ⟨x, List.mem_cons_of_mem _ hx, hcx⟩
          · right; exact hsp

/-- Characters of a slid history come from the old history, the new word,
or are spaces. -/
theorem mem_slide {h w h' : PyStr} (hs : slide h w = some h') :
    ∀ c ∈ h', c ∈ h ∨ c = ' ' ∨ c ∈ w := by
  have htail : ∀ c ∈ joinSp (splitSp h).tail, c ∈ h ∨ c = ' ' := by
    intro c hc
    rcases mem_joinSp hc with ⟨u, hu, hcu⟩ | hsp
    · exact Or.inl (mem_of_mem_splitOnP _ h u (List.mem_of_mem_tail hu) c hcu)
    · exact Or.inr hsp
  intro c hc
  cases hg : h.getLast? with
  | none => simp [slide, hg] at hs
  | some a =>
    simp only [slide, hg] at hs
    by_cases ha : a = ' '
    · rw [if_pos ha] at hs
      cases hs
      rcases List.mem_append.mp hc with h1 | h2
      · rcases htail c h1 with hm | hm
        · exact Or.inl hm
        · exact Or.inr (Or.inl hm)
      · exact Or.inr (Or.inr h2)
    · rw [if_neg ha] at hs
      cases hs
      rcases List.mem_append.mp hc with h1 | h2
      · rcases htail c h1 with hm | hm
        · exact Or.inl hm
        · exact Or.inr (Or.inl hm)
      · rcases List.mem_cons.mp h2 with rfl | h3
        · exact Or.inr (Or.inl rfl)
        · exact Or.inr (Or.inr h3)

/-- On a well-formed history of n - 1 words with n at least 3, the slide
drops the oldest word, appends the new word with a single joining space,
and the result is again a well-formed history of n - 1 words. -/
theorem slide_goodHist {n : ℕ} (hn : 3 ≤ n) {h w : PyStr} (hg : goodHist n h)
    (hw : w ≠ []) (hsf : spaceFree w) :
    slide h w = some (joinSp ((splitSp h).tail ++ [w])) ∧
      goodHist n (joinSp ((splitSp h).tail ++ [w])) := by
  obtain ⟨hlen, hall⟩ := hg
  have hws_ne : splitSp h ≠ [] := by
    intro hnil
    rw [hnil] at hlen
    simp at hlen
    omega
  obtain ⟨l, u, hws⟩ := (List.eq_nil_or_concat (splitSp h)).resolve_left hws_ne
  rw [List.concat_eq_append] at hws
  have hu_mem : u ∈ splitSp h := by rw [hws]; simp
  obtain ⟨hu_ne, hu_sf⟩ := hall u hu_mem
  obtain ⟨t, c, hu⟩ := (List.eq_nil_or_concat u).resolve_left hu_ne
  rw [List.concat_eq_append] at hu
  have hc_ne : ¬(c = ' ') := hu_sf c (by rw [hu]; simp)
  have h_eq : h = joinSp (l ++ [t ++ [c]]) := by
    conv_lhs => rw [← joinSp_splitSp h, hws, hu]
  have hlast : h.getLast? = some c := by
    rw [h_eq]; exact getLast?_joinSp_concat_ne
  have htail_ne : (splitSp h).tail ≠ [] := by
    intro hnil
    have := List.length_tail (splitSp h)
    rw [hnil] at this
    simp at this
    omega
  have hjoin : joinSp (splitSp h).tail ++ ' ' :: w = joinSp ((splitSp h).tail ++ [w]) :=
    (joinSp_concat _ htail_ne w).symm
  have hallnew : ∀ u' ∈ (splitSp h).tail ++ [w], u' ≠ [] ∧ spaceFree u' := by
    intro u' hu'
    rcases List.mem_append.mp hu' with h1 | h2
    · exact hall u' (List.mem_of_mem_tail h1)
    · rcases List.mem_cons.mp h2 with rfl | h3
      · exact ⟨hw, hsf⟩
      · simp at h3
  have hsplit_new : splitSp (joinSp ((splitSp h).tail ++ [w])) = (splitSp h).tail ++ [w] :=
    splitSp_joinSp (by simp) (fun u' hu' => (hallnew u' hu').2)
  refine ⟨?_, ?_, ?_⟩
  · simp only [slide, hlast, if_neg hc_ne, hjoin]
  · rw [hsplit_new]
    have := List.length_tail (splitSp h)
    simp [this, hlen]
    omega
  · rw [hsplit_new]
    exact hallnew

/-- Sliding the initial history with the first word yields a well-formed
history of n - 1 words, for n at least 3: the placeholder words plus the
new word, joined by single spaces. -/
theorem slide_initHist {n : ℕ} (hn : 3 ≤ n) {w : PyStr} (hw : w ≠ []) (hsf : spaceFree w) :
    slide (initHist n) w = some (joinSp (List.replicate (n - 2) (pys "~") ++ [w])) ∧
      goodHist n (joinSp (List.replicate (n - 2) (pys "~") ++ [w])) := by
  have hn1 : n - 1 = (n - 2) + 1 := by omega
  have hn2 : n - 2 = (n - 3) + 1 := by omega
  have hrep_ne : List.replicate (n - 1) (pys "~") ≠ [] := by
    rw [hn1, List.replicate_succ]; simp
  have hrep2_ne : List.replicate (n - 2) (pys "~") ≠ [] := by
    rw [hn2, List.replicate_succ]; simp
  have hsf_rep : ∀ u ∈ List.replicate (n - 1) (pys "~") ++ [[]], spaceFree u := by
    intro u hu
    rcases List.mem_append.mp hu with h1 | h2
    · rw [List.eq_of_mem_replicate h1]; decide
    · rcases List.mem_cons.mp h2 with rfl | h3
      · intro c hc; simp at hc
      · simp at h3
  have hlast : (initHist n).getLast? = some ' ' := by
    rw [initHist_eq]; exact getLast?_joinSp_concat_nil hrep_ne
  have hsplit : splitSp (initHist n) = List.replicate (n - 1) (pys "~") ++ [[]] := by
    rw [initHist_eq]
    exact splitSp_joinSp (by simp) hsf_rep
  have htail : (splitSp (initHist n)).tail = List.replicate (n - 2) (pys "~") ++ [[]] := by
    rw [hsplit, hn1, List.replicate_succ]
    simp
  have hjoin1 : joinSp (List.replicate (n - 2) (pys "~") ++ [[]]) =
      joinSp (List.replicate (n - 2) (pys "~")) ++ ' ' :: [] :=
    joinSp_concat _ hrep2_ne []
  have hjoin2 : joinSp (List.replicate (n - 2) (pys "~")) ++ ' ' :: w =
      joinSp (List.replicate (n - 2) (pys "~") ++ [w]) :=
    (joinSp_concat _ hrep2_ne w).symm
  have hstep : slide (initHist n) w =
      some (joinSp (List.replicate (n - 2) (pys "~") ++ [w])) := by
    simp only [slide, hlast, if_pos rfl, htail, hjoin1]
    rw [← hjoin2]
    simp
  have hallnew : ∀ u ∈ List.replicate (n - 2) (pys "~") ++ [w], u ≠ [] ∧ spaceFree u := by
    intro u hu
    rcases List.mem_append.mp hu with h1 | h2
    · rw [List.eq_of_mem_replicate h1]
      exact ⟨by decide, by decide⟩
    · rcases List.mem_cons.mp h2 with rfl | h3
      · exact ⟨hw, hsf⟩
      · simp at h3
  have hsplit_new : splitSp (joinSp (List.replicate (n - 2) (pys "~") ++ [w])) =
      List.replicate (n - 2) (pys "~") ++ [w] :=
    splitSp_joinSp (by simp) (fun u hu => (hallnew u hu).2)
  refine ⟨hstep, ?_, ?_⟩
  · rw [hsplit_new]
    simp
    omega
  · rw [hsplit_new]
    exact hallnew

/-- C2 (amended): tokens produced by tokenization are whitespace-free; for
n ≥ 3, sliding the initial history with a nonempty space-free word yields
(without raising) a history of exactly n - 1 space-joined nonempty words,
and the slide of lines 94-99/178-183 preserves that shape — it drops the
oldest word, appends the new word and re-joins with single spaces.  (As
the counterexample records, the claim fails as stated for n = 2, and the
initial history string itself carries a trailing space.) -/
theorem history_slide_amended (n : ℕ) (hn : 3 ≤ n) :
    (∀ s : PyStr, ∀ t ∈ tokenize s, ∀ c ∈ t, isWS c = false ∧ ¬(c = ' ')) ∧
    (∀ w : PyStr, w ≠ [] → spaceFree w →
      (slide (initHist n) w).isSome = true ∧
      (∀ h', slide (initHist n) w = some h' → goodHist n h')) ∧
    (∀ h w : PyStr, goodHist n h → w ≠ [] → spaceFree w →
      (slide h w).isSome = true ∧
      (∀ h', slide h w = some h' → goodHist n h')) := by
  refine ⟨?_, ?_, ?_⟩
  · intro s t ht c hc
    have h1 : isWS c = false := sepFree_of_mem_splitOnP isWS s t ht c hc
    refine ⟨h1, ?_⟩
    intro hceq
    rw [hceq] at h1
    simp [isWS] at h1
  · intro w hw hsf
    obtain ⟨hs, hg⟩ := slide_initHist hn hw hsf
    refine ⟨by rw [hs]; rfl, ?_⟩
    intro h' hh'
    rw [hs] at hh'
    injection hh' with he
    rw [← he]
    exact hg
  · intro h w hg hw hsf
    obtain ⟨hs, hg'⟩ := slide_goodHist hn hg hw hsf
    refine ⟨by rw [hs]; rfl, ?_⟩
    intro h' hh'
    rw [hs] at hh'
    injection hh' with he
    rw [← he]
    exact hg'

/-- C2 fails as stated: training with n = 2 on the one-document list corpus
of the specification scenario produces the model below, whose key
`"love cats"` is a history that occurred during training and consists of
2 space-joined words, not n - 1 = 1 (the model also exhibits the keys
`"~ "` and `" love"`, with a trailing and a leading space). -/
theorem history_width_cex :
    train_lm (Sum.inr [pys "I love cats I love dogs"]) 2 =
      some [(pys "~ ", [(pys "I", 1)]), (pys "I", [(pys "love", 1)]),
        (pys " love", [(pys "cats", 1)]), (pys "love cats", [(pys "I", 1)]),
        (pys "cats I", [(pys "love", 1)]), (pys "I love", [(pys "dogs", 1)])] ∧
    (splitSp (pys "love cats")).length = 2 ∧ ¬((2 : ℕ) = 2 - 1) :=
  ⟨by decide, by decide, by decide⟩

/-- Witness for `history_slide_amended`: at n = 3, sliding the initial
history `"~ ~ "` with the word `"a"` yields the well-formed two-word
history `"~ a"`. -/
theorem history_slide_amended_witness : goodHist 3 (pys "~ a") :=
  ((history_slide_amended 3 (by norm_num)).2.1 (pys "a") (by decide) (by decide)).2
    (pys "~ a") (by decide)

/-- With n = 1 the initial history is the empty string. -/
theorem initHist_one : initHist 1 = [] := rfl

/-- A non-skipped token makes the single-string step raise at n = 1: the
count is incremented, then `history[-1]` is evaluated on the empty
history. -/
theorem stepTok_one_none {m : ModelRaw} {t : PyStr} (h : isSkip t = false) :
    stepTok 1 m t = none := by
  simp [stepTok, h, slide, initHist]

/-- A skipped token leaves the single-string loop state unchanged. -/
theorem stepTok_skip {n : ℕ} {m : ModelRaw} {t : PyStr} (h : isSkip t = true) :
    stepTok n m t = some m := by
  simp [stepTok, h]

/-- A skipped token leaves the per-word loop state unchanged. -/
theorem stepWord_skip {st : ModelRaw × PyStr} {w : PyStr} (h : isSkip w = true) :
    stepWord st w = some st := by
  simp [stepWord, h]

/-- The single-string loop raises at n = 1 as soon as some token survives
the skip filter. -/
theorem runToks_one_none : ∀ (ts : List PyStr) (m : ModelRaw),
    (∃ t ∈ ts, isSkip t = false) → runToks 1 m ts = none := by
  intro ts
  induction ts with
  | nil => intro m hr; simp at hr
  | cons t ts' ih =>
    intro m hr
    cases hsk : isSkip t with
    | false => simp [runToks, stepTok_one_none hsk]
    | true =>
      simp only [runToks, stepTok_skip hsk, Option.some_bind]
      obtain ⟨u, hu, hsku⟩ := hr
      rcases List.mem_cons.mp hu with rfl | hu'
      · rw [hsk] at hsku; cases hsku
      · exact ih m ⟨u, hu', hsku⟩

/-- If every token is skipped, the single-string loop returns the model
unchanged. -/
theorem runToks_skip : ∀ (ts : List PyStr) (n : ℕ) (m : ModelRaw),
    (∀ t ∈ ts, isSkip t = true) → runToks n m ts = some m := by
  intro ts
  induction ts with
  | nil => intro n m _; rfl
  | cons t ts' ih =>
    intro n m hall
    have hsk := hall t (List.mem_cons_self t ts')
    simp only [runToks, stepTok_skip hsk, Option.some_bind]
    exact ih n m (fun u hu => hall u (List.mem_cons_of_mem t hu))

/-- The per-word loop on the empty history raises as soon as some word
survives the skip filter. -/
theorem runWords_nil_none : ∀ (ws : List PyStr) (m : ModelRaw),
    (∃ w ∈ ws, isSkip w = false) → runWords (m, []) ws = none := by
  intro ws
  induction ws with
  | nil => intro m hr; simp at hr
  | cons w ws' ih =>
    intro m hr
    cases hsk : isSkip w with
    | false => simp [runWords, stepWord, hsk, slide]
    | true =>
      simp only [runWords, stepWord_skip hsk, Option.some_bind]
      obtain ⟨u, hu, hsku⟩ := hr
      rcases List.mem_cons.mp hu with rfl | hu'
      · rw [hsk] at hsku; cases hsku
      · exact ih m ⟨u, hu', hsku⟩

/-- If every word is skipped, the per-word loop returns its state
unchanged. -/
theorem runWords_skip : ∀ (ws : List PyStr) (st : ModelRaw × PyStr),
    (∀ w ∈ ws, isSkip w = true) → runWords st ws = some st := by
  intro ws
  induction ws with
  | nil => intro st _; rfl
  | cons w ws' ih =>
    intro st hall
    have hsk := hall w (List.mem_cons_self w ws')
    simp only [runWords, stepWord_skip hsk, Option.some_bind]
    exact ih st (fun u hu => hall u (List.mem_cons_of_mem w hu))

/-- The per-document loop at n = 1 raises as soon as some document has a
non-skipped word. -/
theorem runDocs_one_none : ∀ (docs : List (List PyStr)) (m : ModelRaw),
    (∃ d ∈ docs, ∃ w ∈ d, isSkip w = false) → runDocs 1 m docs = none := by
  intro docs
  induction docs with
  | nil => intro m hr; simp at hr
  | cons d docs' ih =>
    intro m hr
    by_cases hd : ∃ w ∈ d, isSkip w = false
    · simp [runDocs, trainTuple, initHist_one, runWords_nil_none d m hd]
    · push_neg at hd
      have hall : ∀ w ∈ d, isSkip w = true := by
        intro w hw
        cases hsk : isSkip w with
        | false => exact absurd hsk (hd w hw)
        | true => rfl
      simp only [runDocs, trainTuple, initHist_one, runWords_skip d _ hall,
        Option.map_some, Option.some_bind]
      obtain ⟨e, he, hw⟩ := hr
      rcases List.mem_cons.mp he with rfl | he'
      · obtain ⟨w, hw1, hw2⟩ := hw
        exact absurd hw2 (hd w hw1)
      · exact ih m ⟨e, he', hw⟩

/-- If every word of every document is skipped, the per-document loop
returns the model unchanged. -/
theorem runDocs_skip : ∀ (docs : List (List PyStr)) (n : ℕ) (m : ModelRaw),
    (∀ d ∈ docs, ∀ w ∈ d, isSkip w = true) → runDocs n m docs = some m := by
  intro docs
  induction docs with
  | nil => intro n m _; rfl
  | cons d docs' ih =>
    intro n m hall
    simp only [runDocs, trainTuple,
      runWords_skip d _ (hall d (List.mem_cons_self d docs')),
      Option.map_some, Option.some_bind]
    exact ih n m (fun e he => hall e (List.mem_cons_of_mem d he))

/-- If a single-string corpus has no real token, every token is skipped. -/
theorem hasReal_false_skip_inl {s : PyStr} (h : hasRealToken (Sum.inl s) = false) :
    ∀ t ∈ tokenize s, isSkip t = true := by
  intro t ht
  cases hsk : isSkip t with
  | true => rfl
  | false =>
    have htr : hasRealToken (Sum.inl s) = true := by
      simp only [hasRealToken, List.any_eq_true]
      exact ⟨t, ht, by simp [hsk]⟩
    rw [htr] at h
    cases h

/-- If a list corpus has no real token, every token of every document is
skipped. -/
theorem hasReal_false_skip_inr {docs : List PyStr}
    (h : hasRealToken (Sum.inr docs) = false) :
    ∀ d ∈ docs, ∀ w ∈ tokenize d, isSkip w = true := by
  intro d hd w hw
  cases hsk : isSkip w with
  | true => rfl
  | false =>
    have htr : hasRealToken (Sum.inr docs) = true := by
      simp only [hasRealToken, List.any_eq_true]
      exact ⟨d, hd, w, hw, by simp [hsk]⟩
    rw [htr] at h
    cases h

/-- C9 (amended): with n = 1 the history scheme collapses to the empty
history and `train_lm` raises an uncaught `IndexError` (at `history[-1]`)
as soon as the corpus contains one non-empty, non-bracketed token; it
returns the empty model when every token is skipped.  It never performs
unigram sampling. -/
theorem train_n1_raises (corpus : Corpus) :
    (hasRealToken corpus = true → train_lm corpus 1 = none) ∧
    (hasRealToken corpus = false → train_lm corpus 1 = some []) := by
  constructor
  · intro hr
    cases corpus with
    | inl s =>
      simp only [hasRealToken, List.any_eq_true, Bool.not_eq_true'] at hr
      obtain ⟨t, ht, hsk⟩ := hr
      show (runToks 1 [] (tokenize s)).map _ = none
      rw [runToks_one_none (tokenize s) [] ⟨t, ht, hsk⟩]
      rfl
    | inr docs =>
      simp only [hasRealToken, List.any_eq_true, Bool.not_eq_true'] at hr
      obtain ⟨d, hd, t, ht, hsk⟩ := hr
      show (runDocs 1 [] (docs.map tokenize)).map _ = none
      rw [runDocs_one_none (docs.map tokenize) []
        ⟨tokenize d, List.mem_map_of_mem tokenize hd, t, ht, hsk⟩]
      rfl
  · intro hr
    cases corpus with
    | inl s =>
      show (runToks 1 [] (tokenize s)).map _ = some []
      rw [runToks_skip (tokenize s) 1 [] (hasReal_false_skip_inl hr)]
      rfl
    | inr docs =>
      show (runDocs 1 [] (docs.map tokenize)).map _ = some []
      rw [runDocs_skip (docs.map tokenize) 1 []
        (fun e he w hw => by
          obtain ⟨d, hd, rfl⟩ := List.mem_map.mp he
          exact hasReal_false_skip_inr hr d hd w hw)]
      rfl

/-- C9 fails as stated: training on the one-token corpus `"a"` with n = 1
raises (modelled by `none`) instead of completing with a unigram model. -/
theorem train_unigram_cex : train_lm (Sum.inl (pys "a")) 1 = none := by decide

/-- Witness for `train_n1_raises`: the corpus `"x y"` has a real token and
training at n = 1 raises. -/
theorem train_n1_raises_witness : train_lm (Sum.inl (pys "x y")) 1 = none :=
  (train_n1_raises (Sum.inl (pys "x y"))).1 (by decide)

/-- For n ≥ 2 the initial history string is nonempty. -/
theorem initHist_ne_nil {n : ℕ} (hn : 2 ≤ n) : initHist n ≠ [] := by
  have h1 : n - 1 = (n - 2) + 1 := by omega
  simp only [initHist, h1, List.replicate_succ, List.flatten_cons]
  simp

/-- With the empty model every loop iteration produces the fallback token
and the slide keeps succeeding. -/
theorem genLoop_empty_model (pick : List (PyStr × ℚ) → PyStr) :
    ∀ (k : ℕ) (h : PyStr), h ≠ [] →
      genLoop [] pick k h = some (List.replicate k (pys "~")) := by
  intro k
  induction k with
  | zero => intro h _; rfl
  | succ k' ih =>
    intro h hh
    have hw : generate_word [] h pick = pys "~" := rfl
    obtain ⟨h', hh'⟩ := Option.isSome_iff_exists.mp (slide_isSome hh (generate_word [] h pick))
    have hne : h' ≠ [] := slide_some_ne_nil hh' (by rw [hw]; decide)
    simp only [genLoop, hh', Option.some_bind, ih h' hne]
    rw [hw, List.replicate_succ]
    rfl

/-- C6: a history absent from the model makes `generate_word` return the
literal fallback token `~` without failing; training on the empty corpus
yields the empty model, and generating any number of words from it (n ≥ 2)
produces the fallback token at every position, so the printed text is k
fallback tokens joined by spaces. -/
theorem fallback_tilde :
    (∀ (lm : Model) (h : PyStr) (pick : List (PyStr × ℚ) → PyStr),
      lookupModel lm h = none → generate_word lm h pick = pys "~") ∧
    (∀ n : ℕ, train_lm (Sum.inl (pys "")) n = some []) ∧
    (∀ (n k : ℕ) (pick : List (PyStr × ℚ) → PyStr), 2 ≤ n →
      genLoop [] pick k (initHist n) = some (List.replicate k (pys "~"))) ∧
    (∀ (n k : ℕ) (pick : List (PyStr × ℚ) → PyStr), 2 ≤ n →
      generate_text (Sum.inl (pys "")) [] n k pick =
        some (joinSp (List.replicate k (pys "~")))) := by
  refine ⟨?_, ?_, ?_, ?_⟩
  · intro lm h pick hm
    simp only [generate_word, hm]
    rfl
  · intro n
    show (runToks n [] (tokenize (pys ""))).map _ = some []
    rw [runToks_skip (tokenize (pys "")) n [] (by decide)]
    rfl
  · intro n k pick hn
    exact genLoop_empty_model pick k (initHist n) (initHist_ne_nil hn)
  · intro n k pick hn
    have h3 := genLoop_empty_model pick k (initHist n) (initHist_ne_nil hn)
    simp only [generate_text, h3, Option.some_bind]
    rw [List.map_replicate, List.map_replicate]
    have hstrip : strip2 (strip1 (pys "~")) = pys "~" := by decide
    rw [hstrip]
    cases k with
    | zero => rfl
    | succ k' =>
      rw [List.replicate_succ]
      simp only [pass3]
      rw [List.map_replicate]
      have hfix : newlineFixStr (pys "") (pys "~") = pys "~" := by decide
      rw [hfix, ← List.replicate_succ]
      rfl

/-- Witness for `fallback_tilde`: a concrete missed lookup produces `~`,
and three words generated from the empty model print as `"~ ~ ~"`. -/
theorem fallback_tilde_witness :
    generate_word [] (pys "x") pickFirst = pys "~" ∧
    generate_text (Sum.inl (pys "")) [] 2 3 pickFirst = some (pys "~ ~ ~") := by
  constructor
  · exact fallback_tilde.1 [] (pys "x") pickFirst rfl
  · have h := fallback_tilde.2.2.2 2 3 pickFirst (by norm_num)
    rw [h]
    decide

/-- A successful model lookup returns an entry of the model. -/
theorem lookupModel_mem : ∀ (lm : Model) (h : PyStr) (d : List (PyStr × ℚ)),
    lookupModel lm h = some d → (h, d) ∈ lm := by
  intro lm
  induction lm with
  | nil => intro h d hd; cases hd
  | cons p rest ih =>
    intro h d hd
    obtain ⟨k, d0⟩ := p
    simp only [lookupModel] at hd
    by_cases hk : k = h
    · rw [if_pos hk] at hd
      injection hd with he
      subst he
      subst hk
      exact List.mem_cons_self _ _
    · rw [if_neg hk] at hd
      exact List.mem_cons_of_mem _ (ih h d hd)

/-- The generation loop runs to completion with exactly k words whenever
n ≥ 2 begins it on a nonempty history and the model offers only nonempty
words. -/
theorem genLoop_isSome {lm : Model} {pick : List (PyStr × ℚ) → PyStr}
    (hw : ∀ p ∈ lm, ∀ q ∈ p.2, q.1 ≠ [])
    (hp : ∀ h d, lookupModel lm h = some d → pick d ∈ d.map Prod.fst) :
    ∀ (k : ℕ) (h : PyStr), h ≠ [] →
      ∃ text, genLoop lm pick k h = some text ∧ text.length = k := by
  intro k
  induction k with
  | zero => intro h _; exact ⟨[], rfl, rfl⟩
  | succ k' ih =>
    intro h hh
    have hwne : generate_word lm h pick ≠ [] := by
      cases hl : lookupModel lm h with
      | none => simp [generate_word, hl]
      | some d =>
        have hmem := hp h d hl
        obtain ⟨q, hq, hqe⟩ := List.mem_map.mp hmem
        have hq1 : q.1 ≠ [] := hw (h, d) (lookupModel_mem lm h d hl) q hq
        simp only [generate_word, hl]
        rw [← hqe]
        exact hq1
    obtain ⟨h', hh'⟩ :=
      Option.isSome_iff_exists.mp (slide_isSome hh (generate_word lm h pick))
    have hne' : h' ≠ [] := slide_some_ne_nil hh' hwne
    obtain ⟨text, ht, hlen⟩ := ih h' hne'
    refine ⟨generate_word lm h pick :: text, ?_, by simp [hlen]⟩
    simp [genLoop, hh', ht]

/-- A successful Option-map over a list preserves its length. -/
theorem mapOptM_length {f : PyStr → Option PyStr} :
    ∀ {l out : List PyStr}, mapOptM f l = some out → out.length = l.length := by
  intro l
  induction l with
  | nil => intro out h; cases h; rfl
  | cons a l' ih =>
    intro out h
    simp only [mapOptM] at h
    cases hf : f a with
    | none => rw [hf] at h; cases h
    | some b =>
      rw [hf] at h
      simp only [Option.some_bind] at h
      cases hm : mapOptM f l' with
      | none => rw [hm] at h; cases h
      | some l'' =>
        rw [hm] at h
        injection h with he
        rw [← he]
        simp [ih hm]

/-- The line-break pass never changes the number of words when it
completes. -/
theorem pass3_length {original : Corpus} {text out : List PyStr}
    (h : pass3 original text = some out) : out.length = text.length := by
  cases text with
  | nil =>
    simp only [pass3] at h
    injection h with he
    rw [← he]
  | cons w0 rest =>
    cases original with
    | inl s =>
      simp only [pass3] at h
      injection h with he
      rw [← he]
      simp
    | inr items =>
      simp only [pass3] at h
      cases hm : mapOptM (newlineFixList items) rest with
      | none => rw [hm] at h; cases h
      | some l' =>
        rw [hm] at h
        injection h with he
        rw [← he]
        simp [mapOptM_length hm]

/-- With a single-string original the line-break pass never raises. -/
theorem pass3_inl_isSome (s : PyStr) (text : List PyStr) :
    (pass3 (Sum.inl s) text).isSome = true := by
  cases text <;> rfl

/-- C7 (amended): for n ≥ 2 and any model whose listed words are all
nonempty (as in every trained model), the generation loop produces exactly
k words, the two paren-stripping passes keep the count at k, and the
line-break pass keeps the count at k whenever it completes — which it
always does when the original corpus is a single string.  (As the
counterexample records, the claim fails as stated for arbitrary n: at
n = 1 the loop itself raises before producing k words.) -/
theorem generate_length_amended (n k : ℕ) (lm : Model)
    (pick : List (PyStr × ℚ) → PyStr) (original : Corpus) (hn : 2 ≤ n)
    (hw : ∀ p ∈ lm, ∀ q ∈ p.2, q.1 ≠ [])
    (hp : ∀ h d, lookupModel lm h = some d → pick d ∈ d.map Prod.fst) :
    (genLoop lm pick k (initHist n)).isSome = true ∧
    (∀ text, genLoop lm pick k (initHist n) = some text →
      text.length = k ∧
      ((text.map strip1).map strip2).length = k ∧
      (∀ out, pass3 original ((text.map strip1).map strip2) = some out →
        out.length = k) ∧
      (∀ s, original = Sum.inl s →
        (generate_text original lm n k pick).isSome = true)) := by
  obtain ⟨text0, ht0, hlen0⟩ := genLoop_isSome hw hp k (initHist n) (initHist_ne_nil hn)
  constructor
  · rw [ht0]; rfl
  · intro text ht
    rw [ht0] at ht
    injection ht with he
    subst he
    refine ⟨hlen0, by simp [hlen0], ?_, ?_⟩
    · intro out hout
      rw [pass3_length hout]
      simp [hlen0]
    · intro s hs
      subst hs
      simp only [generate_text, ht0, Option.some_bind]
      obtain ⟨out, hout⟩ := Option.isSome_iff_exists.mp
        (pass3_inl_isSome s ((text0.map strip1).map strip2))
      rw [hout]
      rfl

/-- C7 fails as stated: with n = 1 (allowed by the claim's "every n") the
generator raises an `IndexError` on its very first slide instead of
producing the requested 2 words. -/
theorem generate_length_cex :
    generate_text (Sum.inl (pys "")) [] 1 2 pickFirst = none := by decide

/-- Witness for `generate_length_amended`: the empty model at n = 2
produces a buffer for k = 2. -/
theorem generate_length_amended_witness :
    (genLoop [] pickFirst 2 (initHist 2)).isSome = true :=
  (generate_length_amended 2 2 [] pickFirst (Sum.inl (pys "")) (by norm_num)
    (by intro p hp q hq; simp at hp)
    (by intro h d hd; simp [lookupModel] at hd)).1

/-- A false `contains` means non-membership. -/
theorem contains_false_not_mem {l : List Char} {a : Char}
    (h : l.contains a = false) : a ∉ l := by
  induction l with
  | nil => simp
  | cons b l' ih =>
    simp only [List.contains_cons, Bool.or_eq_false_iff] at h
    intro hm
    rcases List.mem_cons.mp hm with rfl | hm'
    · simp at h
    · exact ih h.2 hm'

/-- A word that survives the skip filter is nonempty and bracket-free. -/
theorem isSkip_false {w : PyStr} (h : isSkip w = false) :
    w ≠ [] ∧ '[' ∉ w ∧ ']' ∉ w := by
  simp only [isSkip, Bool.or_eq_false_iff] at h
  obtain ⟨⟨h1, h2⟩, h3⟩ := h
  refine ⟨?_, contains_false_not_mem h1, contains_false_not_mem h2⟩
  intro hnil
  rw [hnil] at h3
  simp at h3

/-- A nonempty bracket-free word survives the skip filter. -/
theorem isSkip_false_of {w : PyStr} (h1 : w ≠ []) (h2 : '[' ∉ w) (h3 : ']' ∉ w) :
    isSkip w = false := by
  cases hsk : isSkip w with
  | false => rfl
  | true =>
    simp only [isSkip, Bool.or_eq_true] at hsk
    rcases hsk with (hc | hc) | hc
    · exact absurd (by simpa using hc) h2
    · exact absurd (by simpa using hc) h3
    · exact absurd (by simpa [List.isEmpty_iff] using hc) h1

/-- Characters of the initial history are placeholders or spaces. -/
theorem mem_initHist {n : ℕ} {c : Char} (hc : c ∈ initHist n) :
    c = '~' ∨ c = ' ' := by
  simp only [initHist] at hc
  obtain ⟨l, hl, hcl⟩ := List.mem_flatten.mp hc
  rw [List.eq_of_mem_replicate hl] at hcl
  simpa using hcl

/-- The initial history is a clean history string for n ≥ 2. -/
theorem initHist_histClean {n : ℕ} (hn : 2 ≤ n) : histClean (initHist n) := by
  refine ⟨initHist_ne_nil hn, ?_, ?_⟩
  · intro hm
    rcases mem_initHist hm with h | h <;> cases h
  · intro hm
    rcases mem_initHist hm with h | h <;> cases h

/-- The slide of a clean history with a non-skipped word is a clean
history. -/
theorem slide_histClean {h w h' : PyStr} (hc : histClean h)
    (hw : isSkip w = false) (hs : slide h w = some h') : histClean h' := by
  obtain ⟨hw_ne, hw_lb, hw_rb⟩ := isSkip_false hw
  obtain ⟨_, hh_lb, hh_rb⟩ := hc
  refine ⟨slide_some_ne_nil hs hw_ne, ?_, ?_⟩
  · intro hm
    rcases mem_slide hs '[' hm with hin | heq | hin
    · exact hh_lb hin
    · cases heq
    · exact hw_lb hin
  · intro hm
    rcases mem_slide hs ']' hm with hin | heq | hin
    · exact hh_rb hin
    · cases heq
    · exact hw_rb hin

/-- Incrementing a counter keeps it nonempty. -/
theorem bumpCounter_ne_nil (w : PyStr) (ctr : Counter) : bumpCounter w ctr ≠ [] := by
  cases ctr with
  | nil => simp [bumpCounter]
  | cons q rest =>
    obtain ⟨x, c⟩ := q
    simp only [bumpCounter]
    split <;> simp

/-- Incrementing a counter keeps all counts positive. -/
theorem bumpCounter_pos {ctr : Counter} (hp : ∀ q ∈ ctr, 0 < q.2) (w : PyStr) :
    ∀ q ∈ bumpCounter w ctr, 0 < q.2 := by
  induction ctr with
  | nil =>
    intro q hq
    simp only [bumpCounter] at hq
    rcases List.mem_cons.mp hq with rfl | h
    · simp
    · simp at h
  | cons r rest ih =>
    intro q hq
    obtain ⟨x, c⟩ := r
    simp only [bumpCounter] at hq
    by_cases hx : x = w
    · rw [if_pos hx] at hq
      rcases List.mem_cons.mp hq with rfl | h
      · simp
      · exact hp q (List.mem_cons_of_mem _ h)
    · rw [if_neg hx] at hq
      rcases List.mem_cons.mp hq with rfl | h
      · exact hp (x, c) (List.mem_cons_self _ _)
      · exact ih (fun r hr => hp r (List.mem_cons_of_mem _ hr)) q h

/-- Every word of an incremented counter is the new word or was already
counted. -/
theorem bumpCounter_words {ctr : Counter} (w : PyStr) :
    ∀ q ∈ bumpCounter w ctr, q.1 = w ∨ ∃ c, (q.1, c) ∈ ctr := by
  induction ctr with
  | nil =>
    intro q hq
    simp only [bumpCounter] at hq
    rcases List.mem_cons.mp hq with rfl | h
    · exact Or.inl rfl
    · simp at h
  | cons r rest ih =>
    intro q hq
    obtain ⟨x, c⟩ := r
    simp only [bumpCounter] at hq
    by_cases hx : x = w
    · rw [if_pos hx] at hq
      rcases List.mem_cons.mp hq with rfl | h
      · exact Or.inl hx
      · exact Or.inr ⟨q.2, List.mem_cons_of_mem _ (by simpa using h)⟩
    · rw [if_neg hx] at hq
      rcases List.mem_cons.mp hq with rfl | h
      · exact Or.inr ⟨c, List.mem_cons_self _ _⟩
      · rcases ih q h with h1 | ⟨c', h2⟩
        · exact Or.inl h1
        · exact Or.inr ⟨c', List.mem_cons_of_mem _ h2⟩

/-- Bumping preserves the positive-counts and nonempty-counter invariant. -/
theorem bump_goodRaw {m : ModelRaw} (hg : goodRaw m) (h w : PyStr) :
    goodRaw (bump h w m) := by
  induction m with
  | nil =>
    intro p hp
    simp only [bump] at hp
    rcases List.mem_cons.mp hp with rfl | h0
    · refine ⟨by simp, ?_⟩
      intro q hq
      rcases List.mem_cons.mp hq with rfl | h1
      · simp
      · simp at h1
    · simp at h0
  | cons e rest ih =>
    intro p hp
    obtain ⟨k, ctr⟩ := e
    simp only [bump] at hp
    by_cases hk : k = h
    · rw [if_pos hk] at hp
      rcases List.mem_cons.mp hp with rfl | h0
      · refine ⟨bumpCounter_ne_nil w ctr, bumpCounter_pos ?_ w⟩
        exact (hg (k, ctr) (List.mem_cons_self _ _)).2
      · exact hg p (List.mem_cons_of_mem _ h0)
    · rw [if_neg hk] at hp
      rcases List.mem_cons.mp hp with rfl | h0
      · exact hg (k, ctr) (List.mem_cons_self _ _)
      · exact ih (fun e he => hg e (List.mem_cons_of_mem _ he)) p h0

/-- Bumping with a clean history key and a non-skipped word preserves
cleanliness of all keys and words. -/
theorem bump_clean {m : ModelRaw} (hc : modelCleanRaw m) {h w : PyStr}
    (hh : isSkip h = false) (hw : isSkip w = false) :
    modelCleanRaw (bump h w m) := by
  induction m with
  | nil =>
    intro p hp
    simp only [bump] at hp
    rcases List.mem_cons.mp hp with rfl | h0
    · refine ⟨hh, ?_⟩
      intro q hq
      rcases List.mem_cons.mp hq with rfl | h1
      · exact hw
      · simp at h1
    · simp at h0
  | cons e rest ih =>
    intro p hp
    obtain ⟨k, ctr⟩ := e
    simp only [bump] at hp
    by_cases hk : k = h
    · rw [if_pos hk] at hp
      rcases List.mem_cons.mp hp with rfl | h0
      · obtain ⟨hk_clean, hv_clean⟩ := hc (k, ctr) (List.mem_cons_self _ _)
        refine ⟨hk_clean, ?_⟩
        intro q hq
        rcases bumpCounter_words w q hq with h1 | ⟨c', h2⟩
        · rw [h1]; exact hw
        · exact hv_clean (q.1, c') h2
      · exact hc p (List.mem_cons_of_mem _ h0)
    · rw [if_neg hk] at hp
      rcases List.mem_cons.mp hp with rfl | h0
      · exact hc (k, ctr) (List.mem_cons_self _ _)
      · exact ih (fun e he => hc e (List.mem_cons_of_mem _ he)) p h0

/-- One per-word training step preserves the counting invariants and keeps
the history clean. -/
theorem stepWord_inv {st st' : ModelRaw × PyStr} {w : PyStr}
    (hG : goodRaw st.1) (hC : modelCleanRaw st.1) (hH : histClean st.2)
    (hs : stepWord st w = some st') :
    goodRaw st'.1 ∧ modelCleanRaw st'.1 ∧ histClean st'.2 := by
  cases hsk : isSkip w with
  | true =>
    rw [stepWord_skip hsk] at hs
    injection hs with he
    rw [← he]
    exact ⟨hG, hC, hH⟩
  | false =>
    simp only [stepWord, hsk, Bool.false_eq_true, if_false] at hs
    cases hsl : slide st.2 w with
    | none => rw [hsl] at hs; cases hs
    | some h' =>
      rw [hsl] at hs
      injection hs with he
      rw [← he]
      have hh_clean : isSkip st.2 = false :=
        isSkip_false_of hH.1 hH.2.1 hH.2.2
      exact ⟨bump_goodRaw hG st.2 w, bump_clean hC hh_clean hsk,
        slide_histClean hH hsk hsl⟩

/-- The per-word loop preserves the counting invariants. -/
theorem runWords_inv : ∀ (ws : List PyStr) (st st' : ModelRaw × PyStr),
    goodRaw st.1 → modelCleanRaw st.1 → histClean st.2 →
    runWords st ws = some st' →
    goodRaw st'.1 ∧ modelCleanRaw st'.1 ∧ histClean st'.2 := by
  intro ws
  induction ws with
  | nil =>
    intro st st' hG hC hH hs
    injection hs with he
    rw [← he]
    exact ⟨hG, hC, hH⟩
  | cons w ws' ih =>
    intro st st' hG hC hH hs
    simp only [runWords] at hs
    cases hstep : stepWord st w with
    | none => rw [hstep] at hs; cases hs
    | some st1 =>
      rw [hstep] at hs
      simp only [Option.some_bind] at hs
      obtain ⟨hG1, hC1, hH1⟩ := stepWord_inv hG hC hH hstep
      exact ih st1 st' hG1 hC1 hH1 hs

/-- Training on one document of a list corpus preserves the counting
invariants, for n ≥ 2. -/
theorem trainTuple_inv {n : ℕ} (hn : 2 ≤ n) {m m' : ModelRaw} {ws : List PyStr}
    (hG : goodRaw m) (hC : modelCleanRaw m) (ht : trainTuple n m ws = some m') :
    goodRaw m' ∧ modelCleanRaw m' := by
  simp only [trainTuple] at ht
  cases hr : runWords (m, initHist n) ws with
  | none => rw [hr] at ht; cases ht
  | some st' =>
    rw [hr] at ht
    injection ht with he
    obtain ⟨hG', hC', _⟩ := runWords_inv ws (m, initHist n) st' hG hC
      (initHist_histClean hn) hr
    rw [← he]
    exact ⟨hG', hC'⟩

/-- The per-document loop preserves the counting invariants, for n ≥ 2. -/
theorem runDocs_inv : ∀ (docs : List (List PyStr)) {n : ℕ}, 2 ≤ n →
    ∀ {m m' : ModelRaw}, goodRaw m → modelCleanRaw m →
    runDocs n m docs = some m' → goodRaw m' ∧ modelCleanRaw m' := by
  intro docs
  induction docs with
  | nil =>
    intro n _ m m' hG hC hs
    injection hs with he
    rw [← he]
    exact ⟨hG, hC⟩
  | cons d docs' ih =>
    intro n hn m m' hG hC hs
    simp only [runDocs] at hs
    cases htt : trainTuple n m d with
    | none => rw [htt] at hs; cases hs
    | some m1 =>
      rw [htt] at hs
      simp only [Option.some_bind] at hs
      obtain ⟨hG1, hC1⟩ := trainTuple_inv hn hG hC htt
      exact ih hn hG1 hC1 hs

/-- One single-string training step preserves the counting invariants, for
n ≥ 2. -/
theorem stepTok_inv {n : ℕ} (hn : 2 ≤ n) {m m' : ModelRaw} {t : PyStr}
    (hG : goodRaw m) (hC : modelCleanRaw m) (hs : stepTok n m t = some m') :
    goodRaw m' ∧ modelCleanRaw m' := by
  cases hsk : isSkip t with
  | true =>
    rw [stepTok_skip hsk] at hs
    injection hs with he
    rw [← he]
    exact ⟨hG, hC⟩
  | false =>
    simp only [stepTok, hsk, Bool.false_eq_true, if_false] at hs
    cases hsl : slide (initHist n) t with
    | none => rw [hsl] at hs; cases hs
    | some h' =>
      rw [hsl] at hs
      injection hs with he
      rw [← he]
      have hh_clean : isSkip (initHist n) = false :=
        isSkip_false_of (initHist_histClean hn).1 (initHist_histClean hn).2.1
          (initHist_histClean hn).2.2
      exact ⟨bump_goodRaw hG (initHist n) t, bump_clean hC hh_clean hsk⟩

/-- The single-string loop preserves the counting invariants, for n ≥ 2. -/
theorem runToks_inv : ∀ (ts : List PyStr) {n : ℕ}, 2 ≤ n →
    ∀ {m m' : ModelRaw}, goodRaw m → modelCleanRaw m →
    runToks n m ts = some m' → goodRaw m' ∧ modelCleanRaw m' := by
  intro ts
  induction ts with
  | nil =>
    intro n _ m m' hG hC hs
    injection hs with he
    rw [← he]
    exact ⟨hG, hC⟩
  | cons t ts' ih =>
    intro n hn m m' hG hC hs
    simp only [runToks] at hs
    cases hstep : stepTok n m t with
    | none => rw [hstep] at hs; cases hs
    | some m1 =>
      rw [hstep] at hs
      simp only [Option.some_bind] at hs
      obtain ⟨hG1, hC1⟩ := stepTok_inv hn hG hC hstep
      exact ih hn hG1 hC1 hs

/-- The counting phase of training yields nonempty positive counters, and
only clean keys and words, for n ≥ 2. -/
theorem trainRaw_inv {corpus : Corpus} {n : ℕ} (hn : 2 ≤ n) {raw : ModelRaw}
    (ht : trainRaw corpus n = some raw) : goodRaw raw ∧ modelCleanRaw raw := by
  cases corpus with
  | inl s =>
    exact runToks_inv (tokenize s) hn (by intro p hp; simp at hp)
      (by intro p hp; simp at hp) ht
  | inr docs =>
    exact runDocs_inv (docs.map tokenize) hn (by intro p hp; simp at hp)
      (by intro p hp; simp at hp) ht

/-- Inserting into the descending sort is a permutation. -/
theorem insertDesc_perm (p : PyStr × ℕ) :
    ∀ l : Counter, List.Perm (insertDesc p l) (p :: l) := by
  intro l
  induction l with
  | nil => exact List.Perm.refl _
  | cons q rest ih =>
    simp only [insertDesc]
    by_cases hq : q.2 ≤ p.2
    · rw [if_pos hq]
    · rw [if_neg hq]
      exact (ih.cons q).trans (List.Perm.swap p q rest)

/-- The stable descending sort is a permutation of the counter. -/
theorem mostCommon_perm : ∀ l : Counter, List.Perm (mostCommon l) l := by
  intro l
  induction l with
  | nil => exact List.Perm.refl _
  | cons p rest ih =>
    simp only [mostCommon]
    exact (insertDesc_perm p _).trans (ih.cons p)

/-- Inserting into a descending list keeps it descending. -/
theorem insertDesc_pairwise {l : Counter}
    (hl : l.Pairwise (fun a b => b.2 ≤ a.2)) (p : PyStr × ℕ) :
    (insertDesc p l).Pairwise (fun a b => b.2 ≤ a.2) := by
  induction l with
  | nil => simp [insertDesc]
  | cons q rest ih =>
    simp only [insertDesc]
    obtain ⟨hq_all, hrest⟩ := List.pairwise_cons.mp hl
    by_cases hq : q.2 ≤ p.2
    · rw [if_pos hq]
      rw [List.pairwise_cons]
      refine ⟨?_, hl⟩
      intro b hb
      rcases List.mem_cons.mp hb with rfl | hb'
      · exact hq
      · exact le_trans (hq_all b hb') hq
    · rw [if_neg hq]
      rw [List.pairwise_cons]
      refine ⟨?_, ih hrest⟩
      intro b hb
      have hb' : b ∈ p :: rest := (insertDesc_perm p rest).mem_iff.mp hb
      rcases List.mem_cons.mp hb' with rfl | hb''
      · omega
      · exact hq_all b hb''

/-- `most_common` output is sorted by descending count. -/
theorem mostCommon_pairwise (l : Counter) :
    (mostCommon l).Pairwise (fun a b => b.2 ≤ a.2) := by
  induction l with
  | nil => simp [mostCommon]
  | cons p rest ih => exact insertDesc_pairwise ih p

/-- Inserting into the descending sort moves the new entry past exactly the
strictly larger counts, so filtering at any fixed count sees the new entry
first. -/
theorem insertDesc_filter (p : PyStr × ℕ) : ∀ (l : Counter) (k : ℕ),
    (insertDesc p l).filter (fun q => q.2 = k) =
      if p.2 = k then p :: l.filter (fun q => q.2 = k)
      else l.filter (fun q => q.2 = k) := by
  intro l
  induction l with
  | nil =>
    intro k
    by_cases hpk : p.2 = k <;> simp [insertDesc, hpk]
  | cons q rest ih =>
    intro k
    simp only [insertDesc]
    by_cases hq : q.2 ≤ p.2
    · rw [if_pos hq]
      by_cases hpk : p.2 = k <;> by_cases hqk : q.2 = k <;>
        simp [List.filter_cons, hpk, hqk]
    · rw [if_neg hq]
      by_cases hpk : p.2 = k
      · have hqk : ¬(q.2 = k) := by omega
        simp [List.filter_cons, hqk, ih, hpk]
      · by_cases hqk : q.2 = k <;> simp [List.filter_cons, hqk, ih, hpk]

/-- Stability of `most_common`: entries with any fixed count keep their
first-encountered order. -/
theorem mostCommon_filter : ∀ (l : Counter) (k : ℕ),
    (mostCommon l).filter (fun q => q.2 = k) = l.filter (fun q => q.2 = k) := by
  intro l
  induction l with
  | nil => intro k; rfl
  | cons p rest ih =>
    intro k
    simp only [mostCommon]
    rw [insertDesc_filter]
    by_cases hpk : p.2 = k <;> simp [List.filter_cons, hpk, ih]

/-- A nonempty counter with positive counts has a positive total. -/
theorem sumCounts_pos {ctr : Counter} (hne : ctr ≠ []) (hp : ∀ q ∈ ctr, 0 < q.2) :
    0 < sumCounts ctr := by
  cases ctr with
  | nil => exact absurd rfl hne
  | cons q rest =>
    have hq := hp q (List.mem_cons_self q rest)
    simp only [sumCounts, List.map_cons, List.sum_cons]
    omega

/-- Rational value of the exact count/total division. -/
theorem mkRat_natCast (a b : ℕ) : mkRat (a : ℤ) b = (a : ℚ) / (b : ℚ) := by
  rw [Rat.mkRat_eq_div]
  simp only [Int.cast_natCast]

/-- Normalization of a nonempty counter is nonempty. -/
theorem normalize_ne_nil {ctr : Counter} (hne : ctr ≠ []) : normalize ctr ≠ [] := by
  intro h
  apply hne
  have h1 : (normalize ctr).length = ctr.length := by
    simp only [normalize, List.length_map]
    exact (mostCommon_perm ctr).length_eq
  rw [h] at h1
  exact List.length_eq_zero.mp h1.symm

/-- Every entry of a normalized counter carries the exact count/total ratio
of a counted word. -/
theorem normalize_mem {ctr : Counter} {q : PyStr × ℚ} (hq : q ∈ normalize ctr) :
    ∃ r ∈ ctr, q.1 = r.1 ∧ q.2 = (r.2 : ℚ) / (sumCounts ctr : ℚ) := by
  simp only [normalize] at hq
  obtain ⟨r, hr, he⟩ := List.mem_map.mp hq
  refine ⟨r, (mostCommon_perm ctr).mem_iff.mp hr, ?_, ?_⟩
  · rw [← he]
  · rw [← he]
    exact mkRat_natCast r.2 (sumCounts ctr)

/-- Normalized probabilities are sorted in descending order. -/
theorem normalize_pairwise (ctr : Counter) :
    (normalize ctr).Pairwise (fun a b => b.2 ≤ a.2) := by
  simp only [normalize]
  refine List.Pairwise.map _ ?_ (mostCommon_pairwise ctr)
  intro a b hab
  show mkRat b.2 (sumCounts ctr) ≤ mkRat a.2 (sumCounts ctr)
  rw [mkRat_natCast, mkRat_natCast]
  have hcast : ((b.2 : ℕ) : ℚ) ≤ ((a.2 : ℕ) : ℚ) := by exact_mod_cast hab
  by_cases hT : ((sumCounts ctr : ℕ) : ℚ) = 0
  · rw [hT]
    simp
  · have hTpos : (0 : ℚ) < ((sumCounts ctr : ℕ) : ℚ) := by
      rcases lt_or_eq_of_le (by positivity : (0 : ℚ) ≤ ((sumCounts ctr : ℕ) : ℚ)) with h | h
      · exact h
      · exact absurd h.symm hT
    exact (div_le_div_iff_of_pos_right hTpos).mpr hcast

/-- The probabilities of a normalized nonempty positive counter sum to 1,
exactly, over the rationals. -/
theorem normalize_sum {ctr : Counter} (hne : ctr ≠ []) (hp : ∀ q ∈ ctr, 0 < q.2) :
    ((normalize ctr).map Prod.snd).sum = 1 := by
  have hT : 0 < sumCounts ctr := sumCounts_pos hne hp
  have hTQ : ((sumCounts ctr : ℕ) : ℚ) ≠ 0 := by
    exact_mod_cast Nat.pos_iff_ne_zero.mp hT
  simp only [normalize, List.map_map]
  have hcomp : (Prod.snd ∘ fun q : PyStr × ℕ => (q.1, mkRat q.2 (sumCounts ctr))) =
      fun q : PyStr × ℕ => (q.2 : ℚ) * ((sumCounts ctr : ℕ) : ℚ)⁻¹ := by
    funext q
    show mkRat q.2 (sumCounts ctr) = _
    rw [mkRat_natCast, div_eq_mul_inv]
  rw [hcomp, List.sum_map_mul_right]
  have hsum : ((mostCommon ctr).map (fun q : PyStr × ℕ => (q.2 : ℚ))).sum
      = ((sumCounts ctr : ℕ) : ℚ) := by
    rw [((mostCommon_perm ctr).map (fun q : PyStr × ℕ => (q.2 : ℚ))).sum_eq]
    simp only [sumCounts]
    rw [Nat.cast_list_sum, List.map_map]
    rfl
  rw [hsum, mul_inv_cancel₀ hTQ]

/-- C5: in a trained model (n ≥ 2), every history key maps to a nonempty
distribution whose probabilities sum exactly to 1 over the rationals, are
sorted by descending count (ties keeping first-encountered order, as the
stable `most_common` filter property states), and equal count/total for
the counts the counting phase recorded after that history. -/
theorem trained_model_normalized (corpus : Corpus) (n : ℕ) (lm : Model)
    (hn : 2 ≤ n) (ht : train_lm corpus n = some lm) :
    modelNormalized corpus n lm := by
  cases hr : trainRaw corpus n with
  | none =>
    unfold train_lm at ht
    rw [hr] at ht
    cases ht
  | some raw =>
    unfold train_lm at ht
    rw [hr] at ht
    replace ht : some (raw.map (fun p => (p.1, normalize p.2))) = some lm := ht
    injection ht with he
    obtain ⟨hG, hC⟩ := trainRaw_inv hn hr
    intro p hp
    rw [← he] at hp
    obtain ⟨p0, hp0, hpe⟩ := List.mem_map.mp hp
    obtain ⟨hne0, hpos0⟩ := hG p0 hp0
    refine ⟨raw, p0.2, hr, ?_, ?_, hne0, hpos0, ?_, ?_, ?_, ?_, ?_⟩
    · rw [← hpe]
      simpa using hp0
    · rw [← hpe]
    · rw [← hpe]
      exact normalize_ne_nil hne0
    · rw [← hpe]
      exact normalize_sum hne0 hpos0
    · rw [← hpe]
      exact normalize_pairwise p0.2
    · rw [← hpe]
      intro q hq
      exact normalize_mem hq
    · intro k
      exact mostCommon_filter p0.2 k

/-- Witness for `trained_model_normalized`: the model trained on the
one-word corpus `"b"` with n = 2. -/
theorem trained_model_normalized_witness :
    modelNormalized (Sum.inl (pys "b")) 2 [(pys "~ ", [(pys "b", 1)])] :=
  trained_model_normalized (Sum.inl (pys "b")) 2 [(pys "~ ", [(pys "b", 1)])]
    (by norm_num) (by decide)

/-- C8: skipped tokens (empty or containing a bracket) leave both loops'
state untouched — no count, no history advance, no reset — and in a
trained model (n ≥ 2) no key and no listed word is empty or contains a
bracket. -/
theorem skip_tokens_clean (corpus : Corpus) (n : ℕ) (lm : Model) (hn : 2 ≤ n)
    (ht : train_lm corpus n = some lm) :
    modelClean lm ∧
    (∀ (st : ModelRaw × PyStr) (w : PyStr), isSkip w = true → stepWord st w = some st) ∧
    (∀ (m : ModelRaw) (tok : PyStr), isSkip tok = true → stepTok n m tok = some m) := by
  refine ⟨?_, fun st w h => stepWord_skip h, fun m tok h => stepTok_skip h⟩
  cases hr : trainRaw corpus n with
  | none =>
    unfold train_lm at ht
    rw [hr] at ht
    cases ht
  | some raw =>
    unfold train_lm at ht
    rw [hr] at ht
    replace ht : some (raw.map (fun p => (p.1, normalize p.2))) = some lm := ht
    injection ht with he
    obtain ⟨hG, hC⟩ := trainRaw_inv hn hr
    intro p hp
    rw [← he] at hp
    obtain ⟨p0, hp0, hpe⟩ := List.mem_map.mp hp
    obtain ⟨hk_clean, hv_clean⟩ := hC p0 hp0
    constructor
    · rw [← hpe]
      exact hk_clean
    · rw [← hpe]
      intro q hq
      obtain ⟨r, hr0, hq1, _⟩ := normalize_mem hq
      rw [hq1]
      exact hv_clean r hr0

/-- Witness for `skip_tokens_clean`: the model trained on `"b"` (which as a
raw string also tokenizes around its clean word) is clean. -/
theorem skip_tokens_clean_witness : modelClean [(pys "~ ", [(pys "b", 1)])] :=
  (skip_tokens_clean (Sum.inl (pys "b")) 2 [(pys "~ ", [(pys "b", 1)])]
    (by norm_num) (by decide)).1

/-- A true `contains` means membership. -/
theorem contains_true_mem {l : List Char} {a : Char} (h : l.contains a = true) :
    a ∈ l := by
  induction l with
  | nil => cases h
  | cons b l' ih =>
    simp only [List.contains_cons, Bool.or_eq_true] at h
    rcases h with h1 | h2
    · have hab : a = b := by simpa using h1
      rw [hab]
      exact List.mem_cons_self _ _
    · exact List.mem_cons_of_mem _ (ih h2)

/-- C1 is a code bug: for a single-string corpus the outer loop of
`train_lm` iterates over the individual words and re-assigns the history
to `"~ " * (n-1)` at the top of each iteration (lines 83-84), so every
word is counted under the initial history only; the specified scenario
model (four conditional histories) is not produced.  The exact result on
the scenario corpus is the single key `"~ "` carrying the unconditional
word distribution, shown here; the second and third conjuncts express the
probabilities as plain rational divisions. -/
theorem train_single_string_collapses :
    train_lm (Sum.inl (pys "I love cats I love dogs")) 2 =
      some [(pys "~ ", [(pys "I", mkRat 1 3), (pys "love", mkRat 1 3),
        (pys "cats", mkRat 1 6), (pys "dogs", mkRat 1 6)])] ∧
    mkRat 1 3 = (1 : ℚ) / 3 ∧ mkRat 1 6 = (1 : ℚ) / 6 := by
  refine ⟨by decide, ?_, ?_⟩
  · rw [show ((1 : ℤ) : ℤ) = ((1 : ℕ) : ℤ) by rfl, mkRat_natCast]
    norm_num
  · rw [show ((1 : ℤ) : ℤ) = ((1 : ℕ) : ℤ) by rfl, mkRat_natCast]
    norm_num

/-- C3 is a code bug in the return value only: the text that line 208
prints is indeed the n_words post-processed words joined by single
spaces — evaluated here on a two-word model — but the function returns
`print(...)`, that is `None`, not the string.  This embedding denotes the
printed string. -/
theorem generate_prints_joined_eval :
    train_lm (Sum.inr [pys "a b"]) 2 =
      some [(pys "~ ", [(pys "a", 1)]), (pys "a", [(pys "b", 1)])] ∧
    generate_text (Sum.inr [pys "a b"])
      [(pys "~ ", [(pys "a", 1)]), (pys "a", [(pys "b", 1)])] 2 3 pickFirst =
      some (pys "a b ~") :=
  ⟨by decide, by decide⟩

/-- C4 fails as stated: the passes of lines 186-193 test whether a paren
occurs anywhere in the word but then unconditionally remove the boundary
character.  A generated word `"a("` (no leading paren) is not left intact:
its first character `a` is removed and generation prints `"("`. -/
theorem paren_strip_cex :
    generate_text (Sum.inl (pys "")) [(pys "~ ", [(pys "a(", 1)])] 2 1 pickFirst =
      some (pys "(") ∧ ¬(pys "(" = pys "a(") :=
  ⟨by decide, by decide⟩

/-- C4 (amended): the first pass removes the word's first character
whenever the word contains `(` anywhere (hence exactly one leading paren
when the word starts with one), the second pass then removes the last
character whenever `)` occurs anywhere (hence exactly one trailing paren
when the word ends with one), and words without the respective paren are
unchanged; the three specification scenarios hold. -/
theorem paren_strip_amended :
    (∀ w : PyStr, w.contains '(' = false → strip1 w = w) ∧
    (∀ t : PyStr, strip1 ('(' :: t) = t) ∧
    (∀ w : PyStr, w.contains '(' = true → strip1 w = w.drop 1) ∧
    (∀ w : PyStr, w.contains ')' = false → strip2 w = w) ∧
    (∀ t : PyStr, strip2 (t ++ [ ')' ]) = t) ∧
    (∀ w : PyStr, w.contains ')' = true → strip2 w = w.dropLast) ∧
    strip2 (strip1 (pys "(shine)")) = pys "shine" ∧
    strip2 (strip1 (pys "(glow")) = pys "glow" ∧
    strip2 (strip1 (pys "gleam)")) = pys "gleam" := by
  refine ⟨?_, ?_, ?_, ?_, ?_, ?_, by decide, by decide, by decide⟩
  · intro w h
    simp only [strip1, h, Bool.false_eq_true, if_false]
  · intro t
    simp [strip1, List.contains_cons]
  · intro w h
    simp only [strip1, h, if_true]
  · intro w h
    simp only [strip2, h, Bool.false_eq_true, if_false]
  · intro t
    have hc : (t ++ [ ')' ]).contains ')' = true := by
      induction t with
      | nil => rfl
      | cons a t' ih => simp [List.contains_cons, ih]
    simp [strip2, hc, List.dropLast_concat]
  · intro w h
    simp only [strip2, h, if_true]

/-- Witness for `paren_strip_amended`: a paren-free word is unchanged and a
leading paren is stripped exactly. -/
theorem paren_strip_amended_witness :
    strip1 (pys "ab") = pys "ab" ∧ strip1 (pys "(cd") = pys "cd" := by
  constructor
  · exact paren_strip_amended.1 (pys "ab") (by decide)
  · have h := paren_strip_amended.2.1 (pys "cd")
    rw [show ('(' :: pys "cd") = pys "(cd" by decide] at h
    exact h

/-- C10: post-processing turns the one-character word `"("` into the empty
string, and for a list-typed original corpus containing a newline the
line-break pass then evaluates `text[i][0]` on that empty word and raises
`IndexError`; with the degenerate model below (every draw forced to the
word `"("` with probability 1), generation fails instead of returning
output. -/
theorem newline_pass_index_error :
    strip2 (strip1 (pys "(")) = pys "" ∧
    generate_text (Sum.inr [pys "a\nb"])
      [(pys "~ ", [(pys "(", 1)]), (pys "(", [(pys "(", 1)])] 2 2 pickFirst =
      none :=
  ⟨by decide, by decide⟩
